import Mathlib

/-!
Verification of the stock-cutter repository (src/algorithm.py, src/profile_cutter.py)
against its natural-language specification.

Real lengths are modelled by `ℚ`, Python integers by `ℤ` (or `ℕ` where the code
guarantees non-negativity, such as integer LP variables with `lowBound=0`).
-/

namespace StockCutter


/-- `Pattern` mirrors the namedtuple `Pattern(pieces_count, waste)` of
`Solver._make_cutting_patterns` (src/algorithm.py line 73). -/
structure Pattern where
  pieces_count : ℕ
  waste : ℚ
deriving DecidableEq

/-- The inner `while waste >= 0` loop of `Solver._make_cutting_patterns`
(src/algorithm.py lines 77-82): starting from `pieces_count = k` and the current
`waste = w`, it appends `(k, w)` and continues with `k + 1` and `w - D`.
The loop terminates because the demand length `D` is positive. -/
def patternLoop (D : ℚ) (hD : 0 < D) (k : ℕ) (w : ℚ) : List Pattern :=
  if h : 0 ≤ w then ⟨k, w⟩ :: patternLoop D hD (k + 1) (w - D) else []
termination_by (⌊w / D⌋ + 1).toNat
decreasing_by
  have h1 : ⌊(w - D) / D⌋ = ⌊w / D⌋ - 1 := by
    rw [sub_div, div_self (ne_of_gt hD)]
    exact_mod_cast Int.floor_sub_int (w / D) 1
  have h2 : (0 : ℤ) ≤ ⌊w / D⌋ := Int.floor_nonneg.mpr (div_nonneg h (le_of_lt hD))
  rw [h1]
  omega

/-- Patterns for a single stock length `L`: the loop body of
`Solver._make_cutting_patterns` for one stock entry, with
`pieces_count = 1` and `waste = L - D` initially (src/algorithm.py lines 77-78). -/
def makeCuttingPatterns (L D : ℚ) (hD : 0 < D) : List Pattern :=
  patternLoop D hD 1 (L - D)

/-- `Solver._make_cutting_patterns` itself: one pattern list per stock length. -/
def patternsOf (lengths : List ℚ) (D : ℚ) (hD : 0 < D) : List (List Pattern) :=
  lengths.map (fun L => makeCuttingPatterns L D hD)

/-! ## The two integer programs of src/algorithm.py

The decision variables `x[i][j]` of both programs are integers with
`lowBound=0`, so they are modelled as a function `x : ℕ → ℕ → ℕ`; only the
indices `i < len(patterns)` and `j < len(patterns[i])` carry constraints. -/

/-- Objective of `Solver._find_min_waste` (src/algorithm.py lines 126-131):
`total_waste` accumulated in row-major loop order. -/
def wasteObjective (pats : List (List Pattern)) (x : ℕ → ℕ → ℕ) : ℚ :=
  ((List.range pats.length).map (fun i =>
    ((List.range (pats.getD i []).length).map (fun j =>
      ((pats.getD i []).getD j ⟨0, 0⟩).waste * (x i j : ℚ))).sum)).sum

/-- Constraint set of the waste-minimization program
(src/algorithm.py lines 116-143): variable upper bounds (`upBound`, line 122),
per-stock capacity (lines 134-136), and exact demand (lines 139-143). -/
def wasteProgramFeasible (pats : List (List Pattern)) (qs : List ℤ) (Q : ℤ)
    (x : ℕ → ℕ → ℕ) : Prop :=
  (∀ i ∈ List.range pats.length, ∀ j ∈ List.range (pats.getD i []).length,
    (x i j : ℤ) ≤ qs.getD i 0) ∧
  (∀ i ∈ List.range pats.length,
    ((List.range (pats.getD i []).length).map (fun j => (x i j : ℤ))).sum ≤ qs.getD i 0) ∧
  ((List.range pats.length).map (fun i =>
    ((List.range (pats.getD i []).length).map (fun j =>
      (((pats.getD i []).getD j ⟨0, 0⟩).pieces_count : ℤ) * (x i j : ℤ))).sum)).sum = Q

/-- The `total_waste` expression rebuilt by `Solver._find_uniform_solution` for
its fourth constraint (src/algorithm.py lines 216-221). -/
def uniformWasteExpr (pats : List (List Pattern)) (x : ℕ → ℕ → ℕ) : ℚ :=
  ((List.range pats.length).map (fun i =>
    ((List.range (pats.getD i []).length).map (fun j =>
      ((pats.getD i []).getD j ⟨0, 0⟩).waste * (x i j : ℚ))).sum)).sum

/-- Constraint set of the fairness program (src/algorithm.py lines 194-221):
the same variable bounds, capacity and demand constraints, plus the fourth
constraint `total_waste == min_waste` (line 221). -/
def uniformProgramFeasible (pats : List (List Pattern)) (qs : List ℤ) (Q : ℤ)
    (minWaste : ℚ) (x : ℕ → ℕ → ℕ) : Prop :=
  (∀ i ∈ List.range pats.length, ∀ j ∈ List.range (pats.getD i []).length,
    (x i j : ℤ) ≤ qs.getD i 0) ∧
  (∀ i ∈ List.range pats.length,
    ((List.range (pats.getD i []).length).map (fun j => (x i j : ℤ))).sum ≤ qs.getD i 0) ∧
  ((List.range pats.length).map (fun i =>
    ((List.range (pats.getD i []).length).map (fun j =>
      (((pats.getD i []).getD j ⟨0, 0⟩).pieces_count : ℤ) * (x i j : ℤ))).sum)).sum = Q ∧
  uniformWasteExpr pats x = minWaste

/-! ## Status handling around the external MILP backend (pulp)

`pulp` statuses are integer codes (`LpStatusOptimal = 1`,
`LpStatusInfeasible = -1`, `LpStatusNotSolved = 0`, `LpStatusUnbounded = -2`,
`LpStatusUndefined = -3`); `lp.LpStatus` maps a code to its display string. A
Python `==` between values of different types (string vs int) is `False`, which
`pyEq` captures. -/

/-- A Python value appearing in the status comparisons: an int or a str. -/
inductive PyVal where
  | int (n : ℤ)
  | str (s : String)
deriving DecidableEq

/-- Python `==` restricted to the int/str values used in the status checks:
equal types compare by value, different types are never equal. -/
def pyEq : PyVal → PyVal → Bool
  | PyVal.int a, PyVal.int b => a == b
  | PyVal.str a, PyVal.str b => a == b
  | _, _ => false

/-- The `lp.LpStatus` code-to-string dictionary of pulp. -/
def lpStatusName (s : ℤ) : String :=
  if s = 0 then "Not Solved"
  else if s = 1 then "Optimal"
  else if s = -1 then "Infeasible"
  else if s = -2 then "Unbounded"
  else "Undefined"

/-- The pulp constant `lp.LpStatusInfeasible`, an *integer*. -/
def lpStatusInfeasibleConst : PyVal := PyVal.int (-1)

/-- Return value of `Solver._find_min_waste` as a function of the backend
status and the objective value (src/algorithm.py lines 145-159): `Optimal`
returns the objective value, `Infeasible` (detected by comparing
`lp.LpStatus[status]` with the *string* `"Infeasible"`) returns `-1`, any other
status falls off the end of the function (Python `None`, modelled as `none`). -/
def findMinWasteReturn (status : ℤ) (objValue : ℚ) : Option ℚ :=
  if status = 1 then some objValue
  else if pyEq (PyVal.str (lpStatusName status)) (PyVal.str ("Infeasible")) then some (-1)
  else none

/-- What `Solver.solve` (src/algorithm.py lines 21-25) does with the value
returned by `_find_min_waste`: `-1` becomes the no-plan report, any other
number is passed to the fairness phase, and Python `None` (`None == -1` is
`False`) is passed on as well. -/
inductive SolveCont where
  | report (msg : String)
  | uniformPhase (minWaste : ℚ)
  | uniformPhaseNone
deriving DecidableEq

def solveMinWasteStep : Option ℚ → SolveCont
  | some q =>
    if q = -1 then SolveCont.report ("Раскрой невозможен, недостаточно заготовок на складе")
    else SolveCont.uniformPhase q
  | none => SolveCont.uniformPhaseNone

/-- Status handling of `Solver._find_uniform_solution`
(src/algorithm.py lines 244-251): `Optimal` prints and proceeds to the output
formatting; the `elif` compares the status *string* `lp.LpStatus[status]` with
the *integer* constant `lp.LpStatusInfeasible`, and any status for which
neither branch fires also proceeds to the output formatting. -/
inductive UniformStep where
  | proceedToFormat
  | internalNoSolution
deriving DecidableEq

def uniformStatusStep (status : ℤ) : UniformStep :=
  if status = 1 then UniformStep.proceedToFormat
  else if pyEq (PyVal.str (lpStatusName status)) lpStatusInfeasibleConst then
    UniformStep.internalNoSolution
  else UniformStep.proceedToFormat

/-! ## The fairness objective (src/algorithm.py lines 223-238) -/

/-- `itertools.combinations(range(n), 2)`: all pairs `(i, j)` with
`i < j < n`, in lexicographic order (src/algorithm.py line 226). -/
def pairsOf (n : ℕ) : List (ℕ × ℕ) :=
  (List.range n).flatMap
    (fun i => ((List.range n).filter (fun j => i < j)).map (fun j => (i, j)))

/-- The constraints `d >= used[i] - used[j]` and `d >= used[j] - used[i]`
added for every pair (src/algorithm.py lines 234-235). The `d` variables are
declared without bounds (line 229), so no sign constraint is imposed on them
directly. -/
def distancesConstraintsHold (n : ℕ) (used : ℕ → ℚ) (d : ℕ → ℕ → ℚ) : Prop :=
  ∀ p ∈ pairsOf n, used p.1 - used p.2 ≤ d p.1 p.2 ∧ used p.2 - used p.1 ≤ d p.1 p.2

/-- The fairness objective `avg_distance = lpSum(distances) / len(used_items)`
(src/algorithm.py line 237): the sum of the pair variables divided by the
number of *stock types*. -/
def avgDistance (n : ℕ) (d : ℕ → ℕ → ℚ) : ℚ :=
  ((pairsOf n).map (fun p => d p.1 p.2)).sum / n

/-- Modelled from the spec's words: the mean of all `d[i][k]` over all pairs,
i.e. the sum divided by the number of pairs. -/
def meanPairwiseDistance (n : ℕ) (d : ℕ → ℕ → ℚ) : ℚ :=
  ((pairsOf n).map (fun p => d p.1 p.2)).sum / (pairsOf n).length

/-! ## Validation in src/algorithm.py (`Solver._validate_data`, lines 43-70) -/

/-- The stock loop of `_validate_data` (lines 48-55): returns the
negative-numbers error on the first entry with a negative length or quantity,
and drops entries whose quantity is zero. -/
def filterStock : List (ℚ × ℤ) → Except String (List ℚ × List ℤ)
  | [] => Except.ok ([], [])
  | e :: rest =>
    if e.1 < 0 ∨ e.2 < 0 then Except.error ("Не должно быть отрицательных чисел")
    else if 0 < e.2 then
      match filterStock rest with
      | Except.error m => Except.error m
      | Except.ok r => Except.ok (e.1 :: r.1, e.2 :: r.2)
    else filterStock rest

/-- `Solver._validate_data` (lines 43-70): filter the stock, reject an empty
filtered stock, then reject a negative demand and a zero demand. -/
def validateData (ls : List ℚ) (qs : List ℤ) (dl : ℚ) (dq : ℤ) :
    Except String (List ℚ × List ℤ) :=
  match filterStock (ls.zip qs) with
  | Except.error m => Except.error m
  | Except.ok p =>
    if p.1 = [] then
      Except.error ("На складе пусто. Введите хотя бы одно количество, большее нуля")
    else if dl < 0 ∨ dq < 0 then Except.error ("Не должно быть отрицательных чисел")
    else if dl = 0 ∨ dq = 0 then Except.error ("Заказ пуст. Введите количество больше нуля")
    else Except.ok p

/-- A clean validation pass implies the demand length is positive (the demand
checks of lines 64-69 have been passed), which is what makes the pattern
loop's termination sound. -/
def validateData_pos {ls : List ℚ} {qs : List ℤ} {dl : ℚ} {dq : ℤ}
    {r : List ℚ × List ℤ} (h : validateData ls qs dl dq = Except.ok r) :
    0 < dl := by
  unfold validateData at h
  split at h
  · simp at h
  · split_ifs at h with h1 h2 h3
    push_neg at h2 h3
    exact lt_of_le_of_ne h2.1 (Ne.symm h3.1)

/-- `Solver.solve` (lines 15-19) up to pattern generation: validation runs
first, and `_make_cutting_patterns` runs only after a clean pass, on the
filtered stock. -/
inductive SolveTrace where
  | validationError (msg : String)
  | madePatterns (pats : List (List Pattern)) (lengths : List ℚ) (qs : List ℤ)
deriving DecidableEq

def solveStage (ls : List ℚ) (qs : List ℤ) (dl : ℚ) (dq : ℤ) : SolveTrace :=
  match h : validateData ls qs dl dq with
  | Except.error m => SolveTrace.validationError m
  | Except.ok p =>
    SolveTrace.madePatterns
      (p.1.map (fun L => makeCuttingPatterns L dl (validateData_pos h))) p.1 p.2

/-! ## src/profile_cutter.py -/

/-- Python float `%` as used by the divisibility test of
`Cutter._priority_stock` (line 30): `a % b = a - b·⌊a/b⌋`. -/
def pyMod (a b : ℚ) : ℚ := a - b * ⌊a / b⌋

/-- `Cutter._priority_stock` (lines 24-32): keeps the stock entries whose
length the demanded length divides exactly, in order. -/
def priorityStock (stock : List (ℚ × ℤ)) (D : ℚ) : List (ℚ × ℤ) :=
  stock.filter (fun p => pyMod p.1 D = 0)

/-- `Cutter._get_var_ranges` (lines 84-89):
`range(0, min(qty, ceil(target/l)) + 1)` for each candidate entry. -/
def getVarRanges (priority : List (ℚ × ℤ)) (target : ℚ) : List (List ℕ) :=
  priority.map (fun p => List.range ((min p.2 ⌈target / p.1⌉ + 1).toNat))

/-- `itertools.product(*ranges)` in its enumeration order: the first
coordinate varies slowest. -/
def listProd : List (List ℕ) → List (List ℕ)
  | [] => [[]]
  | r :: rs => r.flatMap (fun v => (listProd rs).map (fun t => v :: t))

/-- `np.dot(values, coeffs)` (line 79). -/
def npDot (v : List ℕ) (c : List ℚ) : ℚ :=
  ((v.zip c).map (fun p => (p.1 : ℚ) * p.2)).sum

/-- The floating-point tolerance `1e-8` of `_solve_equation` (line 80). -/
def tol : ℚ := 1 / 100000000

/-- `Cutter._solve_equation` (lines 73-82): keep, in enumeration order, the
tuples whose weighted total is within `tol` of the target. -/
def solveEquation (coeffs : List ℚ) (ranges : List (List ℕ)) (target : ℚ) :
    List (List ℕ) :=
  (listProd ranges).filter (fun v => |npDot v coeffs - target| < tol)

/-- `np.var` (line 96): population variance, the mean squared deviation from
the mean. -/
def npVar (l : List ℕ) : ℚ :=
  ((l.map (fun v => ((v : ℚ) - (l.map (fun u => (u : ℚ))).sum / l.length) ^ 2)).sum)
    / l.length

/-- The loop of `Cutter._choose_best_solution` (lines 91-100):
`best_variance` starts at `float('inf')` (modelled by `none`) and the result
is replaced exactly when the variance strictly decreases. -/
def chooseBestLoop (best : List ℕ) (bestVar : Option ℚ) : List (List ℕ) → List ℕ
  | [] => best
  | s :: rest =>
    match bestVar with
    | none => chooseBestLoop s (some (npVar s)) rest
    | some b =>
      if npVar s < b then chooseBestLoop s (some (npVar s)) rest
      else chooseBestLoop best (some b) rest

def chooseBestSolution (sols : List (List ℕ)) : List ℕ :=
  chooseBestLoop [] none sols

/-- The solver core of `Cutter._process` (lines 66-71): the equation
coefficients are the candidate lengths, the ranges are as above, the target is
the total demanded length. -/
def cutterSolutions (stock : List (ℚ × ℤ)) (D target : ℚ) : List (List ℕ) :=
  solveEquation ((priorityStock stock D).map Prod.fst)
    (getVarRanges (priorityStock stock D) target) target

def cutterAnswer (stock : List (ℚ × ℤ)) (D target : ℚ) : List ℕ :=
  chooseBestSolution (cutterSolutions stock D target)

/-- Total length of a stock or demand dictionary, `sum(l * qty ...)`
(lines 59-60, 68). -/
def totalLen (entries : List (ℚ × ℤ)) : ℚ :=
  (entries.map (fun p => p.1 * (p.2 : ℚ))).sum

/-- The stock error messages of `Cutter._validate_data` (lines 47-49): only a
negative *quantity* is rejected; lengths are never checked. -/
def cutterStockErrs (stock : List (ℚ × ℤ)) : List String :=
  (stock.filter (fun p => p.2 < 0)).map (fun p =>
    "Отрицательное количество профиля длины " ++ toString p.1 ++ ": " ++ toString p.2)

/-- The demand error messages of `Cutter._validate_data` (lines 50-54): only
the *quantity* is checked (zero and negative); the demand length is never
checked. -/
def cutterDemandErrs (demand : List (ℚ × ℤ)) : List String :=
  demand.flatMap (fun p =>
    (if p.2 = 0 then ["Количество заказанного профиля должно быть больше 0"] else []) ++
    (if p.2 < 0 then
      ["Отрицательное количество заказанного профиля: " ++ toString p.2] else []))

/-- `Cutter._validate_data` (lines 45-64): quantity errors first; if none, the
total-material check. -/
def cutterValidate (stock demand : List (ℚ × ℤ)) : List String :=
  if cutterStockErrs stock ++ cutterDemandErrs demand = [] then
    (if totalLen stock < totalLen demand then
      ["Недостаточно профиля на складе! Есть " ++ toString (totalLen stock) ++
        " метров, надо " ++ toString (totalLen demand)]
    else [])
  else cutterStockErrs stock ++ cutterDemandErrs demand

/-- `Cutter._format_output` (lines 102-114). `int(l / demanded)` truncates
toward zero in Python; in the non-negative exact-divisor situations in which
this branch is exercised it equals the floor used here. -/
def formatOutput (priority : List (ℚ × ℤ)) (demandLen : ℚ) (answer : List ℕ) :
    String :=
  if answer.length = 0 then "Решения без остатков не найдено"
  else ((priority.zip answer).map (fun p =>
    "Используйте разбиение " ++ toString p.1.1 ++ " ⟶ " ++
    toString (List.replicate (⌊p.1.1 / demandLen⌋).toNat demandLen) ++ " " ++
    toString p.2 ++ " раз(а)\n")).foldl (fun a b => a ++ b) ""

/-- Outcome of running a `Cutter` request. Building a `Cutter` (lines 6-8)
runs `_to_dictionaries` and then `_priority_stock` *before* any validation:
with an empty demand dict, `list(self._demand.keys())[0]` (line 27) raises
`IndexError`, and with a zero demanded length the expression
`stock_prof % demanded_profile` (line 30) raises `ZeroDivisionError` on the
first stock entry — in both cases no validation message is ever produced. -/
inductive CutterRun where
  | initError
  | zeroDivisionError
  | invalid (msg : String)
  | solved (text : String)
deriving DecidableEq

/-- The loop of `Cutter._priority_stock` (lines 29-31) together with its
failure mode: evaluating `stock_prof % demanded_profile` raises
`ZeroDivisionError` exactly when the demanded length is `0`, so the loop
fails on its first iteration whenever the stock is nonempty and `D = 0`. -/
def priorityLoop (D : ℚ) : List (ℚ × ℤ) → Option (List (ℚ × ℤ))
  | [] => some []
  | e :: rest =>
    if D = 0 then none
    else if pyMod e.1 D = 0 then (priorityLoop D rest).map (fun r => e :: r)
    else priorityLoop D rest

/-- A `Cutter` request end to end, in the program's order: `__init__` first
computes the candidate set from the first demand key (lines 6-8 and 24-32,
possibly raising before validation), then `calculate` (lines 34-43) validates
and either joins the error messages or runs `_process` (lines 66-71) and
formats its answer. -/
def cutterRun (stock : List (ℚ × ℤ)) : List (ℚ × ℤ) → CutterRun
  | [] => CutterRun.initError
  | d0 :: dr =>
    match priorityLoop d0.1 stock with
    | none => CutterRun.zeroDivisionError
    | some priority =>
      if cutterValidate stock (d0 :: dr) = [] then
        CutterRun.solved (formatOutput priority d0.1
          (chooseBestSolution (solveEquation (priority.map Prod.fst)
            (getVarRanges priority (totalLen (d0 :: dr))) (totalLen (d0 :: dr)))))
      else CutterRun.invalid
        ((cutterValidate stock (d0 :: dr)).foldl (fun acc e => acc ++ e ++ "\n") "")

/-! ## `Cutter._to_dictionaries` (src/profile_cutter.py lines 10-22) -/

/-- Python dict assignment `d[k] = v`: an existing key keeps its position and
gets the new value, a new key is appended. -/
def dictInsert (d : List (ℚ × ℚ)) (k v : ℚ) : List (ℚ × ℚ) :=
  if d.any (fun p => p.1 = k) then d.map (fun p => if p.1 = k then (k, v) else p)
  else d ++ [(k, v)]

/-- Python dict lookup `d[k]` on the raw request mapping; a missing key raises
`KeyError`, modelled by `none`. -/
def dictLookup (d : List (String × ℚ)) (k : String) : Option ℚ :=
  (d.find? (fun p => p.1 = k)).map Prod.snd

/-- Python `key.startswith(s)`. -/
def strStarts (key s : String) : Bool := key.data.take s.data.length == s.data

/-- Python `key[-1]`: the last character of the key. -/
def lastChar (key : String) : Char := key.data.getLastD 'A'

/-- The loop of `Cutter._to_dictionaries` (lines 13-21): a `qty…` key with a
nonzero value stores its value under the length found at the key
`"len" + key[-1]` — only the *final* character of the quantity key; the
`demand_qty` key stores its value under the `demand_len` length. Raw request
values are modelled as already-parsed numbers, since parsing the strings is a
caller-level concern. -/
def toDictLoop (input : List (String × ℚ)) :
    List (String × ℚ) → List (ℚ × ℚ) × List (ℚ × ℚ) →
    Option (List (ℚ × ℚ) × List (ℚ × ℚ))
  | [], acc => some acc
  | e :: rest, acc =>
    if strStarts e.1 ("qty") ∧ e.2 ≠ 0 then
      match dictLookup input ("len".push (lastChar e.1)) with
      | none => none
      | some l => toDictLoop input rest (dictInsert acc.1 l e.2, acc.2)
    else if e.1 = "demand_qty" then
      match dictLookup input ("demand_len") with
      | none => none
      | some l => toDictLoop input rest (acc.1, dictInsert acc.2 l e.2)
    else toDictLoop input rest acc

def toDictionaries (input : List (String × ℚ)) :
    Option (List (ℚ × ℚ) × List (ℚ × ℚ)) :=
  toDictLoop input input ([], [])

/-! ## Theorems -/

theorem patternLoop_eq (D : ℚ) (hD : 0 < D) :
    ∀ (n : ℕ) (k : ℕ) (w : ℚ), (⌊w / D⌋ + 1).toNat = n →
      patternLoop D hD k w = (List.range n).map (fun i => ⟨k + i, w - (i : ℚ) * D⟩) := by
  intro n
  induction n with
  | zero =>
    intro k w hn
    rw [patternLoop]
    have hw : ¬ (0 ≤ w) := by
      intro hw
      have : (0 : ℤ) ≤ ⌊w / D⌋ := Int.floor_nonneg.mpr (div_nonneg hw hD.le)
      omega
    simp [hw]
  | succ m ih =>
    intro k w hn
    have hw : 0 ≤ w := by
      by_contra hw
      push_neg at hw
      have : ⌊w / D⌋ < 0 := by
        have : w / D < 0 := div_neg_of_neg_of_pos hw hD
        exact Int.floor_lt.mpr (by simpa using this)
      omega
    rw [patternLoop, dif_pos hw]
    have hshift : ⌊(w - D) / D⌋ = ⌊w / D⌋ - 1 := by
      rw [sub_div, div_self (ne_of_gt hD)]
      exact_mod_cast Int.floor_sub_int (w / D) 1
    have hm : (⌊(w - D) / D⌋ + 1).toNat = m := by
      rw [hshift]
      omega
    rw [ih (k + 1) (w - D) hm, List.range_succ_eq_map, List.map_cons, List.map_map]
    simp only [List.cons.injEq]
    refine ⟨by simp [Pattern.mk.injEq], ?_⟩
    apply List.map_congr_left
    intro i _
    simp only [Function.comp_apply, Pattern.mk.injEq]
    refine ⟨by omega, by push_cast; ring⟩

/-- Closed form of the single-stock pattern list: the `k`-th pattern (1-based)
is `(k, L - k·D)`, and there are `max(⌊L/D⌋, 0)` of them. -/
theorem makeCuttingPatterns_eq (L D : ℚ) (hD : 0 < D) :
    makeCuttingPatterns L D hD =
      (List.range (⌊L / D⌋).toNat).map (fun i => ⟨i + 1, L - ((i : ℚ) + 1) * D⟩) := by
  have hshift : ⌊(L - D) / D⌋ = ⌊L / D⌋ - 1 := by
    rw [sub_div, div_self (ne_of_gt hD)]
    exact_mod_cast Int.floor_sub_int (L / D) 1
  rw [makeCuttingPatterns,
    patternLoop_eq D hD (⌊L / D⌋).toNat 1 (L - D) (by rw [hshift]; omega)]
  apply List.map_congr_left
  intro i _
  simp only [Pattern.mk.injEq]
  refine ⟨by omega, by push_cast; ring⟩

/-- Claim C1: for every stock length `L` and demand length `D > 0`, the pattern
generator returns exactly the finite list of pairs `(k, L - k·D)` for
`k = 1, 2, ...` while `L - k·D ≥ 0`, ordered by increasing `k`; in particular an
empty list when `L < D`. -/
theorem c1_pattern_generator (L D : ℚ) (hD : 0 < D) :
    makeCuttingPatterns L D hD =
      (List.range (⌊L / D⌋).toNat).map (fun i => ⟨i + 1, L - ((i : ℚ) + 1) * D⟩) ∧
    (∀ p : Pattern, p ∈ makeCuttingPatterns L D hD ↔
      1 ≤ p.pieces_count ∧ p.waste = L - (p.pieces_count : ℚ) * D ∧ 0 ≤ p.waste) ∧
    (L < D → makeCuttingPatterns L D hD = []) := by
  have hspec := makeCuttingPatterns_eq L D hD
  refine ⟨hspec, ?_, ?_⟩
  · intro p
    rw [hspec]
    simp only [List.mem_map, List.mem_range]
    constructor
    · rintro ⟨i, hi, rfl⟩
      have hle : ((i : ℤ) + 1) ≤ ⌊L / D⌋ := by omega
      have hle' : ((i : ℚ) + 1) ≤ L / D := by
        have := Int.le_floor.mp hle
        push_cast at this
        exact this
      have hmul : ((i : ℚ) + 1) * D ≤ L := by
        rw [← le_div_iff₀ hD]
        exact hle'
      refine ⟨by simp, by push_cast; ring_nf, by simpa [sub_nonneg] using hmul⟩
    · rintro ⟨hk, hwaste, hnn⟩
      have hmul : (p.pieces_count : ℚ) * D ≤ L := by
        rw [hwaste] at hnn
        linarith
      have hle' : (p.pieces_count : ℚ) ≤ L / D := by
        rw [le_div_iff₀ hD]
        exact hmul
      have hfl : (p.pieces_count : ℤ) ≤ ⌊L / D⌋ := Int.le_floor.mpr (by push_cast; exact hle')
      refine ⟨p.pieces_count - 1, by omega, ?_⟩
      cases p with
      | mk pk pw =>
        simp only [Pattern.pieces_count] at hk hfl
        simp only [Pattern.waste] at hwaste
        simp only [Pattern.mk.injEq]
        refine ⟨by omega, ?_⟩
        rw [hwaste]
        have hcast : ((pk - 1 : ℕ) : ℚ) + 1 = (pk : ℚ) := by
          push_cast [Nat.cast_sub hk]
          ring
        rw [hcast]
  · intro hLD
    rw [hspec]
    have hfl : ⌊L / D⌋ < 1 := by
      refine Int.floor_lt.mpr ?_
      push_cast
      rw [div_lt_one hD]
      exact hLD
    have h0 : (⌊L / D⌋).toNat = 0 := by omega
    rw [h0]
    simp

/-- Witness for C1 at the Scenario-A stock length 5 and demand length 2. -/
theorem c1_pattern_generator_witness :
    (0 : ℚ) < 2 ∧
    makeCuttingPatterns 5 2 (by norm_num) = [⟨1, 3⟩, ⟨2, 1⟩] := by
  refine ⟨by norm_num, ?_⟩
  have h2 : (⌊(5 : ℚ) / 2⌋).toNat = 2 := by
    have hf : ⌊(5 : ℚ) / 2⌋ = 2 := by norm_num
    rw [hf]
    rfl
  rw [(c1_pattern_generator 5 2 (by norm_num)).1, h2]
  norm_num [List.range_succ, Pattern.mk.injEq]

theorem listSum_range {M : Type*} [AddCommMonoid M] (n : ℕ) (f : ℕ → M) :
    ((List.range n).map f).sum = ∑ i ∈ Finset.range n, f i := by
  induction n with
  | zero => simp
  | succ m ih =>
    rw [List.range_succ, List.map_append, List.sum_append, Finset.sum_range_succ, ih]
    simp

/-- Claim C2: a usage plan is accepted by the waste-minimizing program exactly
when every variable is a non-negative integer bounded by its stock quantity,
every stock's total usage is at most its quantity, and the produced pieces
equal the demand quantity exactly; the objective is the total waste
`Σ waste[i][j]·x[i][j]`. -/
theorem c2_waste_program (pats : List (List Pattern)) (qs : List ℤ) (Q : ℤ)
    (x : ℕ → ℕ → ℕ) :
    (wasteProgramFeasible pats qs Q x ↔
      ((∀ i < pats.length, ∀ j < (pats.getD i []).length,
        0 ≤ (x i j : ℤ) ∧ (x i j : ℤ) ≤ qs.getD i 0) ∧
       (∀ i < pats.length,
        (∑ j ∈ Finset.range (pats.getD i []).length, (x i j : ℤ)) ≤ qs.getD i 0) ∧
       (∑ i ∈ Finset.range pats.length, ∑ j ∈ Finset.range (pats.getD i []).length,
        (((pats.getD i []).getD j ⟨0, 0⟩).pieces_count : ℤ) * (x i j : ℤ)) = Q)) ∧
    wasteObjective pats x =
      ∑ i ∈ Finset.range pats.length, ∑ j ∈ Finset.range (pats.getD i []).length,
        ((pats.getD i []).getD j ⟨0, 0⟩).waste * (x i j : ℚ) := by
  constructor
  · unfold wasteProgramFeasible
    simp only [List.mem_range, listSum_range]
    constructor
    · rintro ⟨h1, h2, h3⟩
      exact ⟨fun i hi j hj => ⟨Int.ofNat_nonneg _, h1 i hi j hj⟩, h2, h3⟩
    · rintro ⟨h1, h2, h3⟩
      exact ⟨fun i hi j hj => (h1 i hi j hj).2, h2, h3⟩
  · unfold wasteObjective
    simp only [listSum_range]

/-- Claim C3: the fairness program has the same variable set and the same
capacity and demand-exactness constraints as the waste program, plus the
constraint that its total-waste expression (which coincides with the waste
phase's objective) equals the minimum waste; hence every plan it accepts has
total waste exactly `minWaste`. -/
theorem c3_fairness_fixes_waste (pats : List (List Pattern)) (qs : List ℤ)
    (Q : ℤ) (minWaste : ℚ) (x : ℕ → ℕ → ℕ) :
    (uniformProgramFeasible pats qs Q minWaste x ↔
      wasteProgramFeasible pats qs Q x ∧ uniformWasteExpr pats x = minWaste) ∧
    uniformWasteExpr pats x = wasteObjective pats x ∧
    (uniformProgramFeasible pats qs Q minWaste x → uniformWasteExpr pats x = minWaste) := by
  refine ⟨?_, rfl, fun h => h.2.2.2⟩
  unfold uniformProgramFeasible wasteProgramFeasible
  tauto

/-- Witness for C3: concrete pattern table `[[(1,3),(2,1)]]` (stock length 5,
demand length 2), quantity 3, demand 2, plan using pattern `(2,1)` once. -/
theorem c3_fairness_fixes_waste_witness :
    uniformProgramFeasible [[⟨1, 3⟩, ⟨2, 1⟩]] [3] 2 1
      (fun i j => if i = 0 ∧ j = 1 then 1 else 0) ∧
    uniformWasteExpr [[⟨1, 3⟩, ⟨2, 1⟩]]
      (fun i j => if i = 0 ∧ j = 1 then 1 else 0) = 1 := by
  have hfeas : uniformProgramFeasible [[⟨1, 3⟩, ⟨2, 1⟩]] [3] 2 1
      (fun i j => if i = 0 ∧ j = 1 then 1 else 0) := by
    unfold uniformProgramFeasible uniformWasteExpr
    refine ⟨by decide, by decide, by decide, by norm_num [List.range_succ]⟩
  exact ⟨hfeas,
    (c3_fairness_fixes_waste [[⟨1, 3⟩, ⟨2, 1⟩]] [3] 2 1
      (fun i j => if i = 0 ∧ j = 1 then 1 else 0)).2.2 hfeas⟩

/-- Claim C6: in `_find_min_waste` only status `Optimal` returns the objective
value; `Infeasible` produces the `-1` sentinel which `solve` turns into the
no-plan report; no other status hands a waste value to the fairness phase; and
the Scenario-B program (stock 2m×1, demand 3m×1, whose single stock entry has
an empty pattern list) is infeasible. -/
theorem c6_min_waste_status (s : ℤ) (v : ℚ) (hs : s ≠ 1) (h3 : (0 : ℚ) < 3) :
    findMinWasteReturn 1 v = some v ∧
    findMinWasteReturn (-1) v = some (-1) ∧
    solveMinWasteStep (some (-1)) =
      SolveCont.report ("Раскрой невозможен, недостаточно заготовок на складе") ∧
    (∀ w : ℚ, solveMinWasteStep (findMinWasteReturn s v) ≠ SolveCont.uniformPhase w) ∧
    makeCuttingPatterns 2 3 h3 = [] ∧
    (∀ x : ℕ → ℕ → ℕ, ¬ wasteProgramFeasible (patternsOf [2] 3 h3) [1] 1 x) := by
  have hpat : makeCuttingPatterns 2 3 h3 = [] := by
    rw [makeCuttingPatterns_eq]
    have hf : ⌊(2 : ℚ) / 3⌋ = 0 := by norm_num
    rw [hf]
    rfl
  refine ⟨by simp [findMinWasteReturn],
    by simp [findMinWasteReturn, lpStatusName, pyEq], by decide, ?_, hpat, ?_⟩
  · intro w
    by_cases h1 : s = -1
    · subst h1
      simp [findMinWasteReturn, lpStatusName, pyEq, solveMinWasteStep]
    · have hname : lpStatusName s ≠ "Infeasible" := by
        unfold lpStatusName
        by_cases h0 : s = 0
        · simp [h0]
        · by_cases h2 : s = -2
          · simp [h0, hs, h1, h2]
          · simp [h0, hs, h1, h2]
      simp [findMinWasteReturn, hs, pyEq, hname, solveMinWasteStep]
  · intro x hx
    have hdemand := hx.2.2
    unfold patternsOf at hdemand
    rw [List.map_cons, List.map_nil, hpat] at hdemand
    simp [List.range_succ] at hdemand

/-- Witness for C6 at the non-optimal, non-infeasible status `0` and objective
value `5`. -/
theorem c6_min_waste_status_witness :
    (0 : ℤ) ≠ 1 ∧ (0 : ℚ) < 3 ∧
    findMinWasteReturn 1 5 = some 5 ∧
    (∀ w : ℚ, solveMinWasteStep (findMinWasteReturn 0 5) ≠ SolveCont.uniformPhase w) :=
  ⟨by decide, by norm_num, (c6_min_waste_status 0 5 (by decide) (by norm_num)).1,
    (c6_min_waste_status 0 5 (by decide) (by norm_num)).2.2.2.1⟩

/-- Claim C7 (code bug): the fairness phase's infeasibility check compares the
status *string* `lp.LpStatus[problem.status]` with the *integer* constant
`lp.LpStatusInfeasible`; a Python `==` between a str and an int is always
`False`, so an `Infeasible` status is never detected and control proceeds to
the output-formatting section. -/
theorem c7_fairness_infeasible_not_detected :
    uniformStatusStep (-1) = UniformStep.proceedToFormat ∧
    lpStatusName (-1) = "Infeasible" ∧
    pyEq (PyVal.str (lpStatusName (-1))) lpStatusInfeasibleConst = false := by
  refine ⟨by decide, by decide, by decide⟩

theorem listSum_flatMap {M : Type*} [AddCommMonoid M] (l : List ℕ)
    (g : ℕ → List M) :
    (l.flatMap g).sum = (l.map (fun a => (g a).sum)).sum := by
  induction l with
  | nil => simp
  | cons a t ih => simp [List.flatMap_cons, List.sum_append, ih]

theorem listSum_filter_range (n : ℕ) (p : ℕ → Prop) [DecidablePred p]
    (f : ℕ → ℚ) :
    (((List.range n).filter (fun j => p j)).map f).sum =
      ∑ j ∈ (Finset.range n).filter p, f j := by
  induction n with
  | zero => simp
  | succ m ih =>
    rw [List.range_succ, List.filter_append, List.map_append, List.sum_append,
      Finset.range_succ, Finset.filter_insert]
    by_cases hp : p m
    · rw [if_pos hp, Finset.sum_insert (by simp)]
      simp [hp, ih]
      ring
    · rw [if_neg hp]
      simp [hp, ih]

/-- Counterexample to claim C4: with two stock types there is one pair, but
the code divides the pair sum by `len(used_items) = 2`, so the objective is
half the mean over pairs; here a feasible assignment where the claimed and the
actual objective differ. -/
theorem c4_mean_counterexample :
    distancesConstraintsHold 2 (fun i => if i = 0 then 3 else 2) (fun _ _ => 1) ∧
    avgDistance 2 (fun _ _ => 1) = 1 / 2 ∧
    meanPairwiseDistance 2 (fun _ _ => 1) = 1 ∧
    avgDistance 2 (fun _ _ => 1) ≠ meanPairwiseDistance 2 (fun _ _ => 1) := by
  have hp : pairsOf 2 = [(0, 1)] := by decide
  refine ⟨?_, ?_, ?_, ?_⟩
  · intro p hp'
    rw [hp] at hp'
    simp only [List.mem_singleton] at hp'
    subst hp'
    norm_num
  · rw [avgDistance, hp]
    norm_num
  · rw [meanPairwiseDistance, hp]
    norm_num
  · rw [avgDistance, meanPairwiseDistance, hp]
    norm_num

/-- Claim C4 as amended: for every pair `(i, k)` with `i < k` the program has
the two linear constraints on `d[i][k]` (which force `d[i][k] ≥ 0` in every
feasible assignment, even though the variable itself is declared unbounded),
and the minimized objective is the sum of all `d[i][k]` divided by the number
of stock types `n` — not by the number of pairs. -/
theorem c4_fairness_objective (n : ℕ) (used : ℕ → ℚ) (d : ℕ → ℕ → ℚ)
    (h : distancesConstraintsHold n used d) :
    (∀ p ∈ pairsOf n, 0 ≤ d p.1 p.2) ∧
    avgDistance n d =
      (∑ i ∈ Finset.range n,
        ∑ j ∈ (Finset.range n).filter (fun j => i < j), d i j) / n := by
  constructor
  · intro p hp
    obtain ⟨h1, h2⟩ := h p hp
    linarith
  · rw [avgDistance, pairsOf, List.map_flatMap, listSum_flatMap, listSum_range]
    congr 1
    apply Finset.sum_congr rfl
    intro i _
    rw [List.map_map]
    exact listSum_filter_range n (fun j => i < j) (fun j => d i j)

/-- Witness for C4's amended claim at `n = 2`. -/
theorem c4_fairness_objective_witness :
    distancesConstraintsHold 2 (fun i => if i = 0 then 4 else 2) (fun _ _ => 2) ∧
    ((∀ p ∈ pairsOf 2, 0 ≤ (2 : ℚ)) ∧
      avgDistance 2 (fun _ _ => (2 : ℚ)) =
        (∑ i ∈ Finset.range 2,
          ∑ j ∈ (Finset.range 2).filter (fun j => i < j), (2 : ℚ)) / 2) := by
  have hcon : distancesConstraintsHold 2 (fun i => if i = 0 then 4 else 2)
      (fun _ _ => 2) := by
    intro p hp
    have h2 : pairsOf 2 = [(0, 1)] := by decide
    rw [h2] at hp
    simp only [List.mem_singleton] at hp
    subst hp
    norm_num
  exact ⟨hcon, c4_fairness_objective 2 (fun i => if i = 0 then 4 else 2)
    (fun _ _ => 2) hcon⟩

theorem filterStock_mem :
    ∀ (l : List (ℚ × ℤ)) (nls : List ℚ) (nqs : List ℤ),
      filterStock l = Except.ok (nls, nqs) →
      ∀ p ∈ nls.zip nqs, 0 ≤ p.1 ∧ 0 < p.2 := by
  intro l
  induction l with
  | nil =>
    intro nls nqs h p hp
    unfold filterStock at h
    simp only [Except.ok.injEq, Prod.mk.injEq] at h
    rw [← h.1, ← h.2] at hp
    simp at hp
  | cons e rest ih =>
    intro nls nqs h p hp
    unfold filterStock at h
    by_cases hneg : e.1 < 0 ∨ e.2 < 0
    · rw [if_pos hneg] at h
      simp at h
    · rw [if_neg hneg] at h
      by_cases hpos : 0 < e.2
      · rw [if_pos hpos] at h
        split at h
        · simp at h
        · rename_i r heq
          simp only [Except.ok.injEq, Prod.mk.injEq] at h
          rw [← h.1, ← h.2, List.zip_cons_cons, List.mem_cons] at hp
          push_neg at hneg
          rcases hp with hp | hp
          · rw [hp]
            exact ⟨hneg.1, hpos⟩
          · exact ih r.1 r.2 heq p hp
      · rw [if_neg hpos] at h
        exact ih nls nqs h p hp

theorem solveStage_error {ls : List ℚ} {qs : List ℤ} {dl : ℚ} {dq : ℤ}
    {m : String} (h : validateData ls qs dl dq = Except.error m) :
    solveStage ls qs dl dq = SolveTrace.validationError m := by
  unfold solveStage
  split
  · rename_i m' heq
    have h2 := h.symm.trans heq
    injection h2 with h3
    rw [h3]
  · rename_i p heq
    exact absurd (h.symm.trans heq) (by simp)

theorem validateData_demand_error {ls : List ℚ} {qs : List ℤ} {dl : ℚ}
    {dq : ℤ} (h : dl ≤ 0 ∨ dq ≤ 0) :
    ∃ m, validateData ls qs dl dq = Except.error m := by
  unfold validateData
  split
  · exact ⟨_, rfl⟩
  · rename_i p heq
    by_cases h1 : p.1 = []
    · rw [if_pos h1]
      exact ⟨_, rfl⟩
    · rw [if_neg h1]
      by_cases h2 : dl < 0 ∨ dq < 0
      · rw [if_pos h2]
        exact ⟨_, rfl⟩
      · rw [if_neg h2]
        push_neg at h2
        have h3 : dl = 0 ∨ dq = 0 := by
          rcases h with h | h
          · exact Or.inl (le_antisymm h h2.1)
          · exact Or.inr (le_antisymm h h2.2)
        rw [if_pos h3]
        exact ⟨_, rfl⟩

theorem cutterValidate_ne_nil {stock demand : List (ℚ × ℤ)}
    (h : ∃ p ∈ demand, p.2 ≤ 0) : cutterValidate stock demand ≠ [] := by
  obtain ⟨p, hp, hple⟩ := h
  have hmem : ∃ msg, msg ∈ cutterDemandErrs demand := by
    rcases Or.symm (lt_or_eq_of_le hple) with heq | hlt
    · refine ⟨"Количество заказанного профиля должно быть больше 0",
        List.mem_flatMap.mpr ⟨p, hp, ?_⟩⟩
      simp [heq]
    · refine ⟨"Отрицательное количество заказанного профиля: " ++ toString p.2,
        List.mem_flatMap.mpr ⟨p, hp, ?_⟩⟩
      simp [hlt, hlt.ne]
  obtain ⟨msg, hmsg⟩ := hmem
  have hne2 : cutterStockErrs stock ++ cutterDemandErrs demand ≠ [] := by
    intro hnil
    rw [List.append_eq_nil] at hnil
    rw [hnil.2] at hmsg
    simp at hmsg
  unfold cutterValidate
  rw [if_neg hne2]
  exact hne2

theorem priorityLoop_eq_some (D : ℚ) (hD : D ≠ 0) :
    ∀ stock : List (ℚ × ℤ), priorityLoop D stock = some (priorityStock stock D) := by
  intro stock
  induction stock with
  | nil => rfl
  | cons e rest ih =>
    unfold priorityLoop
    rw [if_neg hD]
    by_cases hm : pyMod e.1 D = 0
    · rw [if_pos hm, ih]
      simp [priorityStock, List.filter_cons, hm]
    · rw [if_neg hm, ih]
      simp [priorityStock, List.filter_cons, hm]

/-- Claim C8 as amended: the general (LP) strategy fails with a validation
message, before pattern generation, for every zero-or-negative demand length
or quantity. The combinatorial strategy does so when the demand *quantity* is
zero or negative and the demanded length is nonzero; its validation never
checks the demand length, and with a zero demanded length and any stock
present it raises `ZeroDivisionError` in the divisibility pre-filter during
construction, before validation can run. -/
theorem c8_validation_short_circuit :
    (∀ (ls : List ℚ) (qs : List ℤ) (dl : ℚ) (dq : ℤ), dl ≤ 0 ∨ dq ≤ 0 →
      ∃ m, solveStage ls qs dl dq = SolveTrace.validationError m) ∧
    (∀ (stock : List (ℚ × ℤ)) (d0 : ℚ × ℤ) (dr : List (ℚ × ℤ)),
      (∃ p ∈ d0 :: dr, p.2 ≤ 0) → d0.1 ≠ 0 →
      ∃ m, cutterRun stock (d0 :: dr) = CutterRun.invalid m) ∧
    (∀ (e : ℚ × ℤ) (stock : List (ℚ × ℤ)) (d0 : ℚ × ℤ) (dr : List (ℚ × ℤ)),
      d0.1 = 0 → cutterRun (e :: stock) (d0 :: dr) = CutterRun.zeroDivisionError) := by
  refine ⟨?_, ?_, ?_⟩
  · intro ls qs dl dq h
    obtain ⟨m, hm⟩ := validateData_demand_error h
    exact ⟨m, solveStage_error hm⟩
  · intro stock d0 dr hex hne
    have hpl : priorityLoop d0.1 stock = some (priorityStock stock d0.1) :=
      priorityLoop_eq_some d0.1 hne stock
    have hval : cutterValidate stock (d0 :: dr) ≠ [] := cutterValidate_ne_nil hex
    exact ⟨(cutterValidate stock (d0 :: dr)).foldl (fun acc e => acc ++ e ++ "\n") "",
      by simp only [cutterRun, hpl]; rw [if_neg hval]⟩
  · intro e stock d0 dr h0
    have hpl : priorityLoop d0.1 (e :: stock) = none := by
      unfold priorityLoop
      rw [if_pos h0]
    simp only [cutterRun, hpl]

/-- Witness for C8's amended claim: the general strategy at demand length 0;
the combinatorial strategy at demand quantity 0 with the nonzero demanded
length 3, and the division failure at demanded length 0. -/
theorem c8_validation_short_circuit_witness :
    ((0 : ℚ) ≤ 0 ∨ (2 : ℤ) ≤ 0) ∧
    (∃ m, solveStage [5] [3] 0 2 = SolveTrace.validationError m) ∧
    (∃ p ∈ [((3 : ℚ), (0 : ℤ))], p.2 ≤ 0) ∧ (3 : ℚ) ≠ 0 ∧
    (∃ m, cutterRun [(6, 2)] [((3 : ℚ), (0 : ℤ))] = CutterRun.invalid m) ∧
    ((0 : ℚ), (5 : ℤ)).1 = 0 ∧
    cutterRun [((6 : ℚ), (2 : ℤ))] [((0 : ℚ), (5 : ℤ))] = CutterRun.zeroDivisionError :=
  ⟨Or.inl le_rfl,
    c8_validation_short_circuit.1 [5] [3] 0 2 (Or.inl le_rfl),
    ⟨(3, 0), by simp⟩, by norm_num,
    c8_validation_short_circuit.2.1 [(6, 2)] (3, 0) [] ⟨(3, 0), by simp⟩ (by norm_num),
    rfl,
    c8_validation_short_circuit.2.2 (6, 2) [] (0, 5) [] rfl⟩

/-- Counterexample to claim C8 as stated: a *negative* demand length passes
the combinatorial strategy's validation entirely (only quantities are
checked), and the solve proceeds to the search instead of failing with a
validation error. -/
theorem c8_negative_demand_length_counterexample :
    cutterValidate [((6 : ℚ), (2 : ℤ))] [((-3 : ℚ), (1 : ℤ))] = [] ∧
    cutterRun [((6 : ℚ), (2 : ℤ))] [((-3 : ℚ), (1 : ℤ))] =
      CutterRun.solved ("Решения без остатков не найдено") := by
  have hval : cutterValidate [((6 : ℚ), (2 : ℤ))] [((-3 : ℚ), (1 : ℤ))] = [] := by
    have hse : cutterStockErrs [((6 : ℚ), (2 : ℤ))] = [] := by
      unfold cutterStockErrs
      simp
    have hde : cutterDemandErrs [((-3 : ℚ), (1 : ℤ))] = [] := by
      unfold cutterDemandErrs
      simp
    have hts : totalLen [((6 : ℚ), (2 : ℤ))] = 12 := by
      unfold totalLen
      norm_num
    have htd : totalLen [((-3 : ℚ), (1 : ℤ))] = -3 := by
      unfold totalLen
      norm_num
    unfold cutterValidate
    rw [hse, hde, hts, htd]
    norm_num
  refine ⟨hval, ?_⟩
  have hpri : priorityStock [((6 : ℚ), (2 : ℤ))] (-3) = [((6 : ℚ), (2 : ℤ))] := by
    have hc : pyMod 6 (-3) = 0 := by
      unfold pyMod
      norm_num
    unfold priorityStock
    simp [List.filter_cons, hc]
  have hrange : getVarRanges [((6 : ℚ), (2 : ℤ))] (-3) = [[0]] := by
    have hc : ⌈(-3 : ℚ) / 6⌉ = 0 := by
      rw [Int.ceil_eq_iff]
      norm_num
    unfold getVarRanges
    simp [hc]
    decide
  have hsols : solveEquation ([((6 : ℚ), (2 : ℤ))].map Prod.fst)
      (getVarRanges [((6 : ℚ), (2 : ℤ))] (-3)) (-3) = [] := by
    unfold solveEquation
    rw [hrange]
    have hprod : listProd [[0]] = [[0]] := by
      unfold listProd listProd
      simp
    rw [hprod]
    have hdot : npDot [0] ([((6 : ℚ), (2 : ℤ))].map Prod.fst) = 0 := by
      unfold npDot
      norm_num
    simp only [List.filter_cons, List.filter_nil, hdot]
    norm_num [tol]
  have htot : totalLen [((-3 : ℚ), (1 : ℤ))] = -3 := by
    unfold totalLen
    norm_num
  have hpl : priorityLoop ((-3 : ℚ), (1 : ℤ)).1 [((6 : ℚ), (2 : ℤ))] =
      some [((6 : ℚ), (2 : ℤ))] := by
    rw [priorityLoop_eq_some ((-3 : ℚ), (1 : ℤ)).1 (by norm_num)]
    simp only []
    rw [hpri]
  simp only [cutterRun, hpl]
  rw [if_pos hval, htot, hsols]
  rfl

theorem dictInsert_vals {d : List (ℚ × ℚ)} {k v : ℚ} (hv : v ≠ 0)
    (hd : ∀ p ∈ d, p.2 ≠ 0) : ∀ p ∈ dictInsert d k v, p.2 ≠ 0 := by
  intro p hp
  unfold dictInsert at hp
  split_ifs at hp with hk
  · obtain ⟨q, hq, hpe⟩ := List.mem_map.mp hp
    by_cases hqk : q.1 = k
    · rw [if_pos hqk] at hpe
      rw [← hpe]
      exact hv
    · rw [if_neg hqk] at hpe
      rw [← hpe]
      exact hd q hq
  · rcases List.mem_append.mp hp with h | h
    · exact hd p h
    · simp only [List.mem_singleton] at h
      rw [h]
      exact hv

theorem toDictLoop_stock_vals :
    ∀ (rest input : List (String × ℚ)) (acc r : List (ℚ × ℚ) × List (ℚ × ℚ)),
      (∀ p ∈ acc.1, p.2 ≠ 0) → toDictLoop input rest acc = some r →
      ∀ p ∈ r.1, p.2 ≠ 0 := by
  intro rest
  induction rest with
  | nil =>
    intro input acc r hacc h
    unfold toDictLoop at h
    simp only [Option.some.injEq] at h
    rw [← h]
    exact hacc
  | cons e rest ih =>
    intro input acc r hacc h
    unfold toDictLoop at h
    split_ifs at h with h1 h2
    · split at h
      · simp at h
      · rename_i l heq
        exact ih input _ r (dictInsert_vals h1.2 hacc) h
    · split at h
      · simp at h
      · rename_i l heq
        exact ih input (acc.1, dictInsert acc.2 l e.2) r hacc h
    · exact ih input acc r hacc h

/-- Counterexample to claim C9 as stated: a stock entry of length 0 with
positive quantity 1 passes validation unchanged and is retained into the
solving stage (with an empty pattern list). -/
theorem c9_zero_length_retained_counterexample :
    validateData [(0 : ℚ)] [(1 : ℤ)] 3 1 = Except.ok ([0], [1]) ∧
    solveStage [(0 : ℚ)] [(1 : ℤ)] 3 1 = SolveTrace.madePatterns [[]] [0] [1] := by
  have h1 : validateData [(0 : ℚ)] [(1 : ℤ)] 3 1 = Except.ok ([0], [1]) := by rfl
  refine ⟨h1, ?_⟩
  unfold solveStage
  split
  · rename_i m heq
    exact absurd (h1.symm.trans heq) (by simp)
  · rename_i p heq
    have hp : ([(0 : ℚ)], [(1 : ℤ)]) = p := Except.ok.inj (h1.symm.trans heq)
    cases hp
    have hmk : makeCuttingPatterns 0 3 (validateData_pos heq) = [] := by
      rw [makeCuttingPatterns_eq]
      have hf : ⌊(0 : ℚ) / 3⌋ = 0 := by norm_num
      rw [hf]
      rfl
    simp [hmk]

/-- Claim C9 as amended: after a clean pass every retained entry has quantity
> 0 and length ≥ 0 — zero-quantity entries are dropped and negative values
rejected, but a zero length with positive quantity is retained; in the
combinatorial strategy's dictionary conversion, retained stock entries have
nonzero quantity while their length is unconstrained. -/
theorem c9_retained_entries :
    (∀ (ls : List ℚ) (qs : List ℤ) (dl : ℚ) (dq : ℤ) (nls : List ℚ) (nqs : List ℤ),
      validateData ls qs dl dq = Except.ok (nls, nqs) →
      ∀ p ∈ nls.zip nqs, 0 ≤ p.1 ∧ 0 < p.2) ∧
    (∀ (input : List (String × ℚ)) (r : List (ℚ × ℚ) × List (ℚ × ℚ)),
      toDictionaries input = some r → ∀ p ∈ r.1, p.2 ≠ 0) := by
  constructor
  · intro ls qs dl dq nls nqs h p hp
    have hf : filterStock (ls.zip qs) = Except.ok (nls, nqs) := by
      unfold validateData at h
      split at h
      · simp at h
      · rename_i p' heq
        split_ifs at h
        simp only [Except.ok.injEq] at h
        rw [← h]
        exact heq
    exact filterStock_mem (ls.zip qs) nls nqs hf p hp
  · intro input r h p hp
    exact toDictLoop_stock_vals input input ([], []) r (by simp) h p hp

/-- Witness for C9's amended claim. -/
theorem c9_retained_entries_witness :
    validateData [(5 : ℚ)] [(3 : ℤ)] 2 7 = Except.ok ([5], [3]) ∧
    (∀ p ∈ ([(5 : ℚ)].zip [(3 : ℤ)]), 0 ≤ p.1 ∧ 0 < p.2) ∧
    toDictionaries [("len0", 5), ("qty0", 3)] = some ([(5, 3)], []) ∧
    (∀ p ∈ [((5 : ℚ), (3 : ℚ))], p.2 ≠ 0) := by
  have h1 : validateData [(5 : ℚ)] [(3 : ℤ)] 2 7 = Except.ok ([5], [3]) := by rfl
  have h2 : toDictionaries [("len0", 5), ("qty0", 3)] = some ([(5, 3)], []) := by
    decide
  exact ⟨h1, c9_retained_entries.1 [5] [3] 2 7 [5] [3] h1,
    h2, c9_retained_entries.2 [("len0", 5), ("qty0", 3)] ([(5, 3)], []) h2⟩

/-- Claim C10: in `_to_dictionaries` the quantity key is paired with `"len"`
plus only its final character — so `qty10` reads the length stored under
`len0`, not `len10` — and two stock entries with the same length collapse into
one dictionary entry holding the last quantity seen. -/
theorem c10_length_key_pairing :
    "len".push (lastChar ("qty10")) = "len0" ∧
    toDictionaries [("len0", 2), ("qty0", 1), ("len10", 8), ("qty10", 4),
      ("demand_len", 1), ("demand_qty", 3)] = some ([(2, 4)], [(1, 3)]) ∧
    toDictionaries [("len0", 5), ("qty0", 2), ("len1", 5), ("qty1", 3),
      ("demand_len", 1), ("demand_qty", 2)] = some ([(5, 3)], [(1, 2)]) := by
  refine ⟨by decide, by decide, by decide⟩

theorem pyMod_eq_zero_iff (a b : ℚ) (hb : b ≠ 0) :
    pyMod a b = 0 ↔ ∃ k : ℤ, a = k * b := by
  unfold pyMod
  constructor
  · intro h
    exact ⟨⌊a / b⌋, by linarith⟩
  · rintro ⟨k, rfl⟩
    have hdiv : ((k : ℚ) * b) / b = (k : ℚ) := mul_div_cancel_right₀ _ hb
    rw [hdiv, Int.floor_intCast]
    ring

theorem mem_listProd :
    ∀ (rs : List (List ℕ)) (v : List ℕ),
      v ∈ listProd rs ↔
        v.length = rs.length ∧ ∀ i < rs.length, v.getD i 0 ∈ rs.getD i [] := by
  intro rs
  induction rs with
  | nil =>
    intro v
    unfold listProd
    simp only [List.mem_singleton, List.length_nil]
    constructor
    · rintro rfl
      exact ⟨rfl, by omega⟩
    · rintro ⟨hlen, _⟩
      exact List.length_eq_zero.mp hlen
  | cons r rest ih =>
    intro v
    unfold listProd
    rw [List.mem_flatMap]
    constructor
    · rintro ⟨a, ha, hv⟩
      rw [List.mem_map] at hv
      obtain ⟨t, ht, rfl⟩ := hv
      obtain ⟨hlen, hmem⟩ := (ih t).mp ht
      refine ⟨by simp [hlen], ?_⟩
      intro i hi
      cases i with
      | zero => simpa using ha
      | succ n =>
        simp only [List.getD_cons_succ]
        exact hmem n (by simpa using hi)
    · rintro ⟨hlen, hmem⟩
      cases v with
      | nil => simp at hlen
      | cons a t =>
        refine ⟨a, ?_, ?_⟩
        · have := hmem 0 (by simp)
          simpa using this
        · rw [List.mem_map]
          refine ⟨t, (ih t).mpr ⟨by simpa using hlen, ?_⟩, rfl⟩
          intro i hi
          have := hmem (i + 1) (by simpa using hi)
          simpa using this

theorem chooseBestLoop_spec :
    ∀ (sols : List (List ℕ)) (cur : List ℕ),
      (chooseBestLoop cur (some (npVar cur)) sols = cur ∧
        ∀ s ∈ sols, npVar cur ≤ npVar s) ∨
      (∃ pre post, sols = pre ++ chooseBestLoop cur (some (npVar cur)) sols :: post ∧
        npVar (chooseBestLoop cur (some (npVar cur)) sols) < npVar cur ∧
        (∀ s ∈ pre, npVar (chooseBestLoop cur (some (npVar cur)) sols) < npVar s) ∧
        (∀ s ∈ sols, npVar (chooseBestLoop cur (some (npVar cur)) sols) ≤ npVar s)) := by
  intro sols
  induction sols with
  | nil =>
    intro cur
    left
    exact ⟨rfl, by simp⟩
  | cons s rest ih =>
    intro cur
    have hstep : chooseBestLoop cur (some (npVar cur)) (s :: rest) =
        if npVar s < npVar cur then chooseBestLoop s (some (npVar s)) rest
        else chooseBestLoop cur (some (npVar cur)) rest := rfl
    by_cases hlt : npVar s < npVar cur
    · rw [hstep, if_pos hlt]
      rcases ih s with ⟨hr, hmin⟩ | ⟨pre, post, hsplit, hrlt, hpre, hall⟩
      · right
        refine ⟨[], rest, by rw [hr, List.nil_append], by rw [hr]; exact hlt, by simp, ?_⟩
        intro t ht
        rw [hr]
        rcases List.mem_cons.mp ht with h | h
        · rw [h]
        · exact hmin t h
      · right
        refine ⟨s :: pre, post, by rw [List.cons_append, ← hsplit],
          lt_trans hrlt hlt, ?_, ?_⟩
        · intro t ht
          rcases List.mem_cons.mp ht with h | h
          · rw [h]
            exact hrlt
          · exact hpre t h
        · intro t ht
          rcases List.mem_cons.mp ht with h | h
          · rw [h]
            exact le_of_lt hrlt
          · exact hall t h
    · rw [hstep, if_neg hlt]
      rcases ih cur with ⟨hr, hmin⟩ | ⟨pre, post, hsplit, hrlt, hpre, hall⟩
      · left
        refine ⟨hr, ?_⟩
        intro t ht
        rcases List.mem_cons.mp ht with h | h
        · rw [h]
          exact not_lt.mp hlt
        · exact hmin t h
      · right
        refine ⟨s :: pre, post, by rw [List.cons_append, ← hsplit],
          hrlt, ?_, ?_⟩
        · intro t ht
          rcases List.mem_cons.mp ht with h | h
          · rw [h]
            exact lt_of_lt_of_le hrlt (not_lt.mp hlt)
          · exact hpre t h
        · intro t ht
          rcases List.mem_cons.mp ht with h | h
          · rw [h]
            exact le_trans (le_of_lt hrlt) (not_lt.mp hlt)
          · exact hall t h

theorem chooseBestSolution_spec (sols : List (List ℕ)) :
    (sols = [] → chooseBestSolution sols = []) ∧
    (sols ≠ [] →
      ∃ pre post, sols = pre ++ chooseBestSolution sols :: post ∧
        (∀ s ∈ pre, npVar (chooseBestSolution sols) < npVar s) ∧
        (∀ s ∈ sols, npVar (chooseBestSolution sols) ≤ npVar s)) := by
  cases sols with
  | nil => exact ⟨fun _ => rfl, fun h => absurd rfl h⟩
  | cons s rest =>
    refine ⟨fun h => by simp at h, fun _ => ?_⟩
    have hstep : chooseBestSolution (s :: rest) =
        chooseBestLoop s (some (npVar s)) rest := rfl
    rw [hstep]
    rcases chooseBestLoop_spec rest s with ⟨hr, hmin⟩ |
      ⟨pre, post, hsplit, hrlt, hpre, hall⟩
    · refine ⟨[], rest, by rw [hr, List.nil_append], by simp, ?_⟩
      intro t ht
      rw [hr]
      rcases List.mem_cons.mp ht with h | h
      · rw [h]
      · exact hmin t h
    · refine ⟨s :: pre, post, by rw [List.cons_append, ← hsplit], ?_, ?_⟩
      · intro t ht
        rcases List.mem_cons.mp ht with h | h
        · rw [h]
          exact hrlt
        · exact hpre t h
      · intro t ht
        rcases List.mem_cons.mp ht with h | h
        · rw [h]
          exact le_of_lt hrlt
        · exact hall t h

/-- Claim C5: the combinatorial solver restricts to the candidate stock types
(those whose length is an exact multiple of the demand length), enumerates the
Cartesian product of the ranges `0 .. min(qty_i, ⌈target/L_i⌉)`, keeps the
tuples whose weighted total is within the `1e-8` tolerance of the target, and
returns the first tuple of minimum variance in enumeration order — or the
empty tuple when no enumerated tuple satisfies the equation. -/
theorem c5_combinatorial_solver (stock : List (ℚ × ℤ)) (D target : ℚ)
    (hD : D ≠ 0) :
    (∀ p : ℚ × ℤ, p ∈ priorityStock stock D ↔ p ∈ stock ∧ ∃ k : ℤ, p.1 = k * D) ∧
    (∀ v : List ℕ,
      v ∈ listProd (getVarRanges (priorityStock stock D) target) ↔
        v.length = (priorityStock stock D).length ∧
        ∀ i < (priorityStock stock D).length,
          (v.getD i 0 : ℤ) ≤
            min ((priorityStock stock D).getD i (0, 0)).2
              ⌈target / ((priorityStock stock D).getD i (0, 0)).1⌉) ∧
    (∀ v : List ℕ,
      v ∈ cutterSolutions stock D target ↔
        v ∈ listProd (getVarRanges (priorityStock stock D) target) ∧
        |npDot v ((priorityStock stock D).map Prod.fst) - target| < tol) ∧
    (cutterSolutions stock D target = [] → cutterAnswer stock D target = []) ∧
    (cutterSolutions stock D target ≠ [] →
      ∃ pre post,
        cutterSolutions stock D target =
          pre ++ cutterAnswer stock D target :: post ∧
        (∀ s ∈ pre, npVar (cutterAnswer stock D target) < npVar s) ∧
        (∀ s ∈ cutterSolutions stock D target,
          npVar (cutterAnswer stock D target) ≤ npVar s)) := by
  refine ⟨?_, ?_, ?_, ?_, ?_⟩
  · intro p
    unfold priorityStock
    rw [List.mem_filter]
    constructor
    · rintro ⟨h1, h2⟩
      exact ⟨h1, (pyMod_eq_zero_iff p.1 D hD).mp (of_decide_eq_true h2)⟩
    · rintro ⟨h1, h2⟩
      exact ⟨h1, decide_eq_true ((pyMod_eq_zero_iff p.1 D hD).mpr h2)⟩
  · intro v
    rw [mem_listProd]
    have hlen : (getVarRanges (priorityStock stock D) target).length =
        (priorityStock stock D).length := by
      unfold getVarRanges
      simp
    constructor
    · rintro ⟨h1, h2⟩
      refine ⟨by rw [h1, hlen], ?_⟩
      intro i hi
      have hmem := h2 i (by rw [hlen]; exact hi)
      unfold getVarRanges at hmem
      rw [List.getD_eq_getElem _ _ (by simpa using hi), List.getElem_map,
        ← List.getD_eq_getElem _ ((0 : ℚ), (0 : ℤ)) hi, List.mem_range] at hmem
      omega
    · rintro ⟨h1, h2⟩
      refine ⟨by rw [h1, ← hlen], ?_⟩
      intro i hi
      rw [hlen] at hi
      have hb := h2 i hi
      unfold getVarRanges
      rw [List.getD_eq_getElem _ _ (by simpa using hi), List.getElem_map,
        ← List.getD_eq_getElem _ ((0 : ℚ), (0 : ℤ)) hi, List.mem_range]
      omega
  · intro v
    unfold cutterSolutions solveEquation
    rw [List.mem_filter]
    simp only [decide_eq_true_eq]
  · intro h
    unfold cutterAnswer
    rw [h]
    rfl
  · intro h
    exact (chooseBestSolution_spec (cutterSolutions stock D target)).2 h

/-- Witness for C5 at Scenario D: stock 6m×2 and 9m×2, demand 3m×5
(target length 15); the only equation solution is one bar of each. -/
theorem c5_combinatorial_solver_witness :
    (3 : ℚ) ≠ 0 ∧
    ((6 : ℚ), (2 : ℤ)) ∈ priorityStock [(6, 2), (9, 2)] 3 ∧
    cutterSolutions [(6, 2), (9, 2)] 3 15 = [[1, 1]] ∧
    cutterAnswer [(6, 2), (9, 2)] 3 15 = [1, 1] ∧
    (∃ pre post,
      cutterSolutions [(6, 2), (9, 2)] 3 15 =
        pre ++ cutterAnswer [(6, 2), (9, 2)] 3 15 :: post ∧
      (∀ s ∈ pre, npVar (cutterAnswer [(6, 2), (9, 2)] 3 15) < npVar s) ∧
      (∀ s ∈ cutterSolutions [(6, 2), (9, 2)] 3 15,
        npVar (cutterAnswer [(6, 2), (9, 2)] 3 15) ≤ npVar s)) := by
  have hc6 : pyMod 6 3 = 0 := by
    unfold pyMod
    norm_num
  have hc9 : pyMod 9 3 = 0 := by
    unfold pyMod
    norm_num
  have hpri : priorityStock [((6 : ℚ), (2 : ℤ)), ((9 : ℚ), (2 : ℤ))] 3 =
      [((6 : ℚ), (2 : ℤ)), ((9 : ℚ), (2 : ℤ))] := by
    unfold priorityStock
    simp [List.filter_cons, hc6, hc9]
  have hce6 : ⌈(15 : ℚ) / 6⌉ = 3 := by
    rw [Int.ceil_eq_iff]
    norm_num
  have hce9 : ⌈(15 : ℚ) / 9⌉ = 2 := by
    rw [Int.ceil_eq_iff]
    norm_num
  have hrange : getVarRanges [((6 : ℚ), (2 : ℤ)), ((9 : ℚ), (2 : ℤ))] 15 =
      [[0, 1, 2], [0, 1, 2]] := by
    unfold getVarRanges
    simp only [List.map_cons, List.map_nil, hce6, hce9]
    decide
  have hprod : listProd [[0, 1, 2], [0, 1, 2]] =
      [[0, 0], [0, 1], [0, 2], [1, 0], [1, 1], [1, 2], [2, 0], [2, 1], [2, 2]] := by
    decide
  have hsols : cutterSolutions [((6 : ℚ), (2 : ℤ)), ((9 : ℚ), (2 : ℤ))] 3 15 =
      [[1, 1]] := by
    unfold cutterSolutions solveEquation
    rw [hpri, hrange, hprod]
    norm_num [List.filter_cons, List.filter_nil, npDot, tol, List.zip_cons_cons]
  have hans : cutterAnswer [((6 : ℚ), (2 : ℤ)), ((9 : ℚ), (2 : ℤ))] 3 15 =
      [1, 1] := by
    unfold cutterAnswer
    rw [hsols]
    rfl
  refine ⟨by norm_num, ?_, hsols, hans, ?_⟩
  · exact ((c5_combinatorial_solver [(6, 2), (9, 2)] 3 15 (by norm_num)).1
      (6, 2)).mpr ⟨by simp, 2, by norm_num⟩
  · exact (c5_combinatorial_solver [(6, 2), (9, 2)] 3 15 (by norm_num)).2.2.2.2
      (by rw [hsols]; simp)

end StockCutter
